import Mathlib

/-!
# Verification of the zstd-seekable-s3 core

Shallow embedding of the four state machines of the repository:

* `Compress` (src/compress.rs): pull-driven streaming compressor,
* `Decompress` (src/decompress.rs): `SeekableDecompress` construction and read,
* `S3` (src/seekable_s3.rs): `SeekableS3Object` read/seek over ranged fetches,
* `UploadParts` (src/upload_s3.rs): chunker producing upload-part requests.

Bytes are modelled as `Nat`, byte buffers as `List Nat`.  The machine widths
`u64`/`usize` are both 64 bits on the supported targets; checked arithmetic on
them is modelled as `Nat` arithmetic with explicit comparisons against
`u64Max`.  The external zstd seekable codec (the `zstd_seekable` crate) is out
of scope for the repository; it is abstracted as the `Codec` interface below
and, for the end-to-end round trip, instantiated with a transparent model
codec written from the spec's description of the FrameCodec capability.
-/

set_option autoImplicit false

universe u

/-- `u64::MAX`: the largest value of the working integer width. -/
def u64Max : Nat := 2 ^ 64 - 1

/-! ## Abstract codec sessions (external `zstd_seekable` compression API)

`compress s input` returns `(output bytes, input bytes consumed)` together
with the mutated session (the session mutation survives even an error, as the
Rust session is mutated in place).  `endStreamStep` is one call of
`SeekableCStream::end_stream`, to be repeated until it reports zero output.
The progress/fuel fields record the termination contract of the real codec:
`compress` always consumes at least one input byte, and the flush loop
reaches zero output after finitely many steps. -/
structure Codec (σ ε : Type) where
  compress : σ → List Nat → Except ε (List Nat × Nat) × σ
  endStreamStep : σ → Except ε (List Nat) × σ
  compress_consumed_le : ∀ s input out consumed s2,
    compress s input = (.ok (out, consumed), s2) → consumed ≤ input.length
  compress_progress : ∀ s input out consumed s2,
    compress s input = (.ok (out, consumed), s2) → input ≠ [] → 0 < consumed
  flushFuel : σ → Nat
  flush_decr : ∀ s out s2,
    endStreamStep s = (.ok out, s2) → out ≠ [] → flushFuel s2 < flushFuel s
  flush_mono : ∀ s out s2,
    endStreamStep s = (.ok out, s2) → flushFuel s2 ≤ flushFuel s

/-! ## `Compress` (src/compress.rs) -/

/-- The `while !input.is_empty()` loop of `Compress::compress_input`: feed the
codec until the whole input chunk is consumed, accumulating the produced
compressed bytes. -/
def compressLoop {σ ε : Type} (c : Codec σ ε) (s : σ) (input : List Nat)
    (acc : List Nat) : Except ε (List Nat) × σ :=
  if h : input = [] then (.ok acc, s)
  else
    match hc : c.compress s input with
    | (.error e, s2) => (.error e, s2)
    | (.ok (out, consumed), s2) => compressLoop c s2 (input.drop consumed) (acc ++ out)
termination_by input.length
decreasing_by
  have hpos := c.compress_progress s input out consumed s2 hc h
  have hlen : 0 < input.length := List.length_pos.mpr h
  simp only [List.length_drop]
  omega

/-- `Compress::compress_input`: empty input produces no output and does not
touch the codec; otherwise loop until the chunk is fully consumed. -/
def compressInput {σ ε : Type} (c : Codec σ ε) (s : σ) (input : List Nat) :
    Except ε (List Nat) × σ :=
  compressLoop c s input []

/-- The `while out_pos > 0` part of `Compress::end_stream`: keep flushing
while the previous flush call produced output. -/
def endStreamLoop {σ ε : Type} (c : Codec σ ε) (s : σ) (prev : List Nat)
    (acc : List Nat) : Except ε (List Nat) × σ :=
  if hp : prev = [] then (.ok acc, s)
  else
    match hc : c.endStreamStep s with
    | (.error e, s2) => (.error e, s2)
    | (.ok out, s2) => endStreamLoop c s2 out (acc ++ out)
termination_by 2 * c.flushFuel s + (if prev = [] then 0 else 1)
decreasing_by
  have hmono := c.flush_mono s out s2 hc
  simp only [if_neg hp]
  by_cases h2 : out = []
  · subst h2
    simp only [ite_true, if_pos trivial]
    omega
  · have hdec := c.flush_decr s out s2 hc h2
    simp only [if_neg h2]
    omega

/-- `Compress::end_stream` minus the `wrote_seek_table` assignment (which the
caller `pollLoop` performs on the success path, matching the source where the
flag is written just before `Ok` is returned): one flush call, then loop while
output keeps coming. -/
def endStreamRun {σ ε : Type} (c : Codec σ ε) (s : σ) :
    Except ε (List Nat) × σ :=
  match c.endStreamStep s with
  | (.error e, s2) => (.error e, s2)
  | (.ok out, s2) => endStreamLoop c s2 out out

/-- State of a `Compress` stream.  `stream` is the upstream byte-chunk
sequence (the list model of an always-ready `futures::Stream`), `cstream` the
codec session, `wrote_seek_table` the finished flag.  `upstreamPolls` is
instrumentation counting calls of `next_input` (i.e. upstream polls). -/
structure CompressState (σ : Type) where
  stream : List (List Nat)
  cstream : σ
  wrote_seek_table : Bool
  upstreamPolls : Nat
deriving DecidableEq, Repr

/-- The `loop` inside `Compress::poll_next`: pull one upstream item; on end of
input run `end_stream` (setting `wrote_seek_table` on success, emitting the
flush bytes if non-empty); on a chunk compress it, re-pulling upstream when
zero compressed bytes resulted. -/
def Compress.pollLoop {σ ε : Type} (c : Codec σ ε) (s : σ) (q : Nat) :
    List (List Nat) → Option (Except ε (List Nat)) × CompressState σ
  | [] =>
    match endStreamRun c s with
    | (.error e, s2) => (some (.error e), ⟨[], s2, false, q + 1⟩)
    | (.ok bs, s2) =>
      if bs = [] then (none, ⟨[], s2, true, q + 1⟩)
      else (some (.ok bs), ⟨[], s2, true, q + 1⟩)
  | chunk :: rest =>
    match compressInput c s chunk with
    | (.error e, s2) => (some (.error e), ⟨rest, s2, false, q + 1⟩)
    | (.ok bs, s2) =>
      if bs = [] then Compress.pollLoop c s2 (q + 1) rest
      else (some (.ok bs), ⟨rest, s2, false, q + 1⟩)

/-- `Compress::poll_next`: once `wrote_seek_table` is set, yield `none`
without touching upstream; otherwise run the pull loop. -/
def Compress.pollNext {σ ε : Type} (c : Codec σ ε) (st : CompressState σ) :
    Option (Except ε (List Nat)) × CompressState σ :=
  if st.wrote_seek_table then (none, st)
  else Compress.pollLoop c st.cstream st.upstreamPolls st.stream

/-- Drive `poll_next` up to `fuel` times, collecting the yielded items, and
stopping at the first end-of-stream report. -/
def drainCompress {σ ε : Type} (c : Codec σ ε) :
    Nat → CompressState σ → List (Except ε (List Nat)) × CompressState σ
  | 0, st => ([], st)
  | fuel + 1, st =>
    match Compress.pollNext c st with
    | (none, st2) => ([], st2)
    | (some it, st2) =>
      let (its, stf) := drainCompress c fuel st2
      (it :: its, stf)

/-- Concatenate the payloads of a run of `Ok` items; `none` if any item is an
error. -/
def collectOk {ε : Type} : List (Except ε (List Nat)) → Option (List Nat)
  | [] => some []
  | .ok bs :: rest => (collectOk rest).map (fun r => bs ++ r)
  | .error _ :: _ => none

/-! ## Model codec

Modelled from the spec: the FrameCodec capability of §6 is external to the
repository (the `zstd_seekable` crate).  The model is a transparent codec:
each frame stores its decompressed bytes verbatim, `compress` cuts full
frames of the target frame size, and the flush emits the pending bytes as a
final frame followed by the trailing seek table (the per-frame decompressed
sizes followed by the frame count).  Compression levels do not change the
decompressed content, so the model ignores the level. -/
structure MCState where
  pending : List Nat
  frameSizes : List Nat
  tableEmitted : Bool
deriving DecidableEq, Repr

/-- Sizes of all frames after flushing: the pending bytes become a final
frame; if nothing at all was ever written, a single empty frame is ended. -/
def mcFinalSizes (s : MCState) : List Nat :=
  if s.pending = [] ∧ s.frameSizes ≠ [] then s.frameSizes
  else s.frameSizes ++ [s.pending.length]

/-- One `compress` call of the model codec: consume the whole input, emit the
data of every completed frame. -/
def mcCompress (f : Nat) (s : MCState) (input : List Nat) :
    Except Empty (List Nat × Nat) × MCState :=
  let all := s.pending ++ input
  let k := all.length / f
  (.ok (all.take (k * f), input.length),
   { pending := all.drop (k * f),
     frameSizes := s.frameSizes ++ List.replicate k f,
     tableEmitted := s.tableEmitted })

/-- One `end_stream` call of the model codec: the first call emits the final
frame and the seek table, every later call reports zero output. -/
def mcEndStreamStep (s : MCState) : Except Empty (List Nat) × MCState :=
  if s.tableEmitted then (.ok [], s)
  else
    let sizes := mcFinalSizes s
    (.ok (s.pending ++ (sizes ++ [sizes.length])),
     { pending := [], frameSizes := sizes, tableEmitted := true })

/-- The model codec packaged with its termination contract. -/
def modelCodec (f : Nat) : Codec MCState Empty where
  compress := mcCompress f
  endStreamStep := mcEndStreamStep
  compress_consumed_le := by
    intro s input out consumed s2 h
    simp only [mcCompress, Prod.mk.injEq, Except.ok.injEq] at h
    omega
  compress_progress := by
    intro s input out consumed s2 h hne
    simp only [mcCompress, Prod.mk.injEq, Except.ok.injEq] at h
    have : 0 < input.length := List.length_pos.mpr hne
    omega
  flushFuel s := if s.tableEmitted then 0 else 1
  flush_decr := by
    intro s out s2 h hne
    by_cases ht : s.tableEmitted
    · simp [mcEndStreamStep, ht] at h
      simp [h.1] at hne
    · simp only [mcEndStreamStep, ht, if_false, Bool.false_eq_true,
        Prod.mk.injEq, Except.ok.injEq] at h
      rcases h with ⟨_, h2⟩
      simp [← h2, ht]
  flush_mono := by
    intro s out s2 h
    by_cases ht : s.tableEmitted
    · simp [mcEndStreamStep, ht] at h
      simp [h.2, ht]
    · simp only [mcEndStreamStep, ht, if_false, Bool.false_eq_true,
        Prod.mk.injEq, Except.ok.injEq] at h
      simp [← h.2, ht]

/-- Feed of one upstream chunk at the spec level: what `compress_input` does
to the model codec (empty chunks are skipped by `compress_input` without a
codec call). -/
def mcFeed (f : Nat) (s : MCState) (chunk : List Nat) : List Nat × MCState :=
  if chunk = [] then ([], s)
  else
    match mcCompress f s chunk with
    | (.ok (out, _), s2) => (out, s2)
    | (.error e, _) => e.elim

/-- Fold `mcFeed` over a chunk list, concatenating the emitted compressed
bytes. -/
def mcRun (f : Nat) (s : MCState) : List (List Nat) → List Nat × MCState
  | [] => ([], s)
  | ch :: rest =>
    let (o, s2) := mcFeed f s ch
    let (os, sf) := mcRun f s2 rest
    (o ++ os, sf)

/-- The whole flush of the model codec: final frame data plus seek table. -/
def mcFinish (s : MCState) : List Nat × MCState :=
  (s.pending ++ (mcFinalSizes s ++ [(mcFinalSizes s).length]),
   { pending := [], frameSizes := mcFinalSizes s, tableEmitted := true })

/-! ## `SeekableDecompress` (src/decompress.rs) -/

/-- One frame as reported by the external `Seekable` session: its
decompressed start offset and decompressed size. -/
structure Frame where
  decompressedOffset : Nat
  decompressedSize : Nat
deriving DecidableEq, Repr

namespace Decompress

/-- `decompress::Error`.  `FrameTooLarge` drops the `TryFromIntError`
payload; `ZstdSeekable` carries the opaque codec error. -/
inductive Error (ε : Type) where
  | NoFrames
  | FrameTooLarge
  | DataTooLarge
  | ZstdSeekable (e : ε)
deriving DecidableEq

/-- The cursor state of `SeekableDecompress` (the `seekable` session itself
is passed separately as the frame table / decompress function). -/
structure State where
  decompressed_size : Nat
  decompressed_position : Nat
deriving DecidableEq, Repr

/-- `SeekableDecompress::new` after `Seekable::init` succeeded: compute the
total decompressed size from the last frame, with the `u64` checks of the
source (`u64::try_from(last_frame_size)` and `checked_add`). -/
def new (ε : Type) (frames : List Frame) : Except (Error ε) State :=
  match frames.getLast? with
  | none => .error .NoFrames
  | some lastFrame =>
    if u64Max < lastFrame.decompressedSize then .error .FrameTooLarge
    else if u64Max < lastFrame.decompressedOffset + lastFrame.decompressedSize then
      .error .DataTooLarge
    else .ok ⟨lastFrame.decompressedOffset + lastFrame.decompressedSize, 0⟩

/-- `SeekableDecompress::read`.  `dec bufLen pos` is the external
`Seekable::decompress` call, returning the decompressed bytes (the read
count is their length).  The second component logs every codec invocation as
`(buffer length passed, position passed)`.  `u64`/`usize` are both 64 bits,
so the two `try_from` conversions between them never fail; the
`checked_sub`, clamp, emptiness and `checked_add` steps follow the source
line by line. -/
def read {ε : Type} (dec : Nat → Nat → Except ε (List Nat)) (st : State)
    (bufLen : Nat) : Except (Error ε) (List Nat × State) × List (Nat × Nat) :=
  if st.decompressed_size ≤ st.decompressed_position then
    -- checked_sub returned None (position past end) or Some 0: no bytes read.
    (.ok ([], st), [])
  else
    let data_left := st.decompressed_size - st.decompressed_position
    let bufLen2 := if data_left < bufLen then data_left else bufLen
    if bufLen2 = 0 then (.ok ([], st), [])
    else
      match dec bufLen2 st.decompressed_position with
      | .error e => (.error (.ZstdSeekable e), [(bufLen2, st.decompressed_position)])
      | .ok bs =>
        if u64Max < st.decompressed_position + bs.length then
          (.error .DataTooLarge, [(bufLen2, st.decompressed_position)])
        else
          (.ok (bs, ⟨st.decompressed_size, st.decompressed_position + bs.length⟩),
           [(bufLen2, st.decompressed_position)])

end Decompress

/-- Read repeatedly through `Decompress.read` with a buffer of `b` bytes
until a read returns no bytes, concatenating everything produced. -/
def readAll {ε : Type} (dec : Nat → Nat → Except ε (List Nat)) (b : Nat) :
    Nat → Decompress.State → Except (Decompress.Error ε) (List Nat)
  | 0, _ => .ok []
  | fuel + 1, st =>
    match (Decompress.read dec st b).1 with
    | .error e => .error e
    | .ok (bs, st2) =>
      if bs = [] then .ok []
      else (readAll dec b fuel st2).map (fun r => bs ++ r)

/-! ## Model `Seekable` session (external `zstd_seekable::Seekable`) -/

/-- A parsed seekable object: the frame table and the decompressed data. -/
structure SeekableModel where
  frames : List Frame
  data : List Nat
deriving DecidableEq, Repr

/-- Frame table from a size list: offsets are the partial sums. -/
def framesOfSizes (off : Nat) : List Nat → List Frame
  | [] => []
  | sz :: rest => ⟨off, sz⟩ :: framesOfSizes (off + sz) rest

/-- Modelled from the spec: `Seekable::init` of the external crate parses the
trailing index ("the index is authoritative for offset→frame lookup", §3).
For the model codec's format — payload bytes, then the per-frame sizes, then
the frame count — it recovers the frame table and the payload, rejecting a
byte sequence that does not carry a consistent index. -/
def Seekable.init (cs : List Nat) : Option SeekableModel :=
  match cs.getLast? with
  | none => none
  | some n =>
    let m := cs.length - 1
    if n ≤ m then
      let body := cs.take (m - n)
      let sizes := (cs.drop (m - n)).take n
      if body.length = sizes.sum then some ⟨framesOfSizes 0 sizes, body⟩ else none
    else none

/-- Modelled from the spec: `Seekable::decompress` "decompress(buf,
absolute_decompressed_offset) → bytes_written" (§6) — return the decompressed
bytes at the requested offset, at most the buffer length many. -/
def skDecompress (sk : SeekableModel) (bufLen pos : Nat) : Except Empty (List Nat) :=
  .ok ((sk.data.drop pos).take bufLen)

/-- End-to-end round trip: drive the `Compress` stream over the model codec
until it terminates, concatenate every `Ok` chunk, open the result through
the model `Seekable`, construct `SeekableDecompress` on it and read it back
in full.  `none` marks any failure along the way (an error item, a
non-terminating drain within `fuel1` polls, a corrupt index, a failing
construction or read). -/
def roundTrip (level f : Nat) (chunks : List (List Nat)) (b fuel1 fuel2 : Nat) :
    Option (List Nat) :=
  let _ := level
  let st0 : CompressState MCState := ⟨chunks, ⟨[], [], false⟩, false, 0⟩
  let (items, stf) := drainCompress (modelCodec f) fuel1 st0
  if stf.wrote_seek_table then
    match collectOk items with
    | none => none
    | some compressed =>
      match Seekable.init compressed with
      | none => none
      | some sk =>
        match Decompress.new Empty sk.frames with
        | .error _ => none
        | .ok st =>
          match readAll (skDecompress sk) b fuel2 st with
          | .error _ => none
          | .ok bytes => some bytes
  else none

/-! ## `SeekableS3Object` (src/seekable_s3.rs)

The tokio runtime bridge and the read timeout are folded into the outcome of
the abstract `client` fetch (`get_object`) and `bodyRead` (one
`body.read(buf)` call): a timeout surfaces as just another error value of the
opaque error type `ι`.  `body` is an abstract sequentially-consumable state
`β`; `bodyRead` returns the bytes-read count and the mutated body (the
mutation survives an error, as the Rust body is mutated in place).
`req_range` mirrors the `req.range` field; `fetch_log` is instrumentation
recording the range header of every issued `get_object` call. -/
structure S3State (β : Type) where
  position : Nat
  length : Nat
  body : Option β
  req_range : Option String
  fetch_log : List String
deriving DecidableEq, Repr

/-- The byte-range wire convention: `format!("bytes={}-", self.position)`. -/
def rangeHeader (pos : Nat) : String :=
  "bytes=" ++ toString pos ++ "-"

namespace S3

/-- `SeekableS3Object::set_position`: if the position actually changes,
invalidate the current object body. -/
def setPosition {β : Type} (st : S3State β) (newPosition : Nat) : S3State β :=
  if st.position ≠ newPosition then
    { st with position := newPosition, body := none }
  else st

/-- `SeekableS3Object::read_body`: read from the open body if any, advancing
the position by the bytes read; with no body, zero bytes and no error.  On a
body error (including a timeout) the error is returned via `?` before the
position update. -/
def readBody {β ι : Type} (bodyRead : β → Nat → Except ι Nat × β)
    (st : S3State β) (bufLen : Nat) : Except ι Nat × S3State β :=
  match st.body with
  | none => (.ok 0, st)
  | some b =>
    match bodyRead b bufLen with
    | (.error e, b2) => (.error e, { st with body := some b2 })
    | (.ok n, b2) => (.ok n, { st with body := some b2, position := st.position + n })

/-- `<SeekableS3Object as Read>::read`.  `client p` is `get_object` with the
range header at position `p` (its result: an error, or a response whose body
may be absent). -/
def read {β ι : Type} (client : Nat → Except ι (Option β))
    (bodyRead : β → Nat → Except ι Nat × β) (st : S3State β) (bufLen : Nat) :
    Except ι Nat × S3State β :=
  if st.length ≤ st.position then (.ok 0, st)
  else if st.body.isSome then readBody bodyRead st bufLen
  else
    let range := rangeHeader st.position
    let st2 : S3State β :=
      { st with req_range := some range, fetch_log := st.fetch_log ++ [range] }
    match client st.position with
    | .error e => (.error e, st2)
    | .ok ob => readBody bodyRead { st2 with body := ob } bufLen

/-- `std::io::SeekFrom`. -/
inductive SeekFrom where
  | Start (pos : Nat)
  | End (pos : Int)
  | Current (pos : Int)
deriving DecidableEq, Repr

/-- The checked `u64` arithmetic of the `Seek` implementations: `checked_add`
for a non-negative offset, `checked_sub` of the wrapped negation otherwise. -/
def checkedSeekPos (basePos : Nat) (off : Int) : Option Nat :=
  if 0 ≤ off then
    if u64Max < basePos + off.toNat then none else some (basePos + off.toNat)
  else
    if (-off).toNat ≤ basePos then some (basePos - (-off).toNat) else none

/-- Seek errors (`std::io::ErrorKind::InvalidInput` on a negative or
overflowing resulting position). -/
inductive SeekError where
  | InvalidSeek
deriving DecidableEq, Repr

/-- `<SeekableS3Object as Seek>::seek`. -/
def seek {β : Type} (st : S3State β) (pos : SeekFrom) :
    Except SeekError Nat × S3State β :=
  match pos with
  | .Start p => (.ok p, setPosition st p)
  | .End off =>
    match checkedSeekPos st.length off with
    | some n => (.ok n, setPosition st n)
    | none => (.error .InvalidSeek, st)
  | .Current off =>
    match checkedSeekPos st.position off with
    | some n => (.ok n, setPosition st n)
    | none => (.error .InvalidSeek, st)

end S3

/-! ## `UploadParts` (src/upload_s3.rs) -/

/-- `rusoto_s3::UploadPartRequest`, with the body as plain bytes.  Exactly
the fields that `part_from_buffer` constructs. -/
structure UploadPartRequest where
  body : Option (List Nat)
  bucket : String
  content_length : Option Int
  content_md5 : Option String
  expected_bucket_owner : Option String
  key : String
  part_number : Int
  request_payer : Option String
  sse_customer_algorithm : Option String
  sse_customer_key : Option String
  sse_customer_key_md5 : Option String
  upload_id : String
deriving DecidableEq, Repr

namespace UploadParts

/-- The non-stream fields of `UploadParts`: the `BytesMut` accumulator
`input`, the next part number, the finished flag, the caller template and the
configured minimum part size. -/
structure Core where
  input : List Nat
  next_part_number : Int
  finished : Bool
  part_template : UploadPartRequest
  minimum_part_size : Nat
deriving DecidableEq, Repr

/-- `UploadParts::part_from_buffer`: build one request from the whole
accumulator, copying the template fields, setting `content_length` to `None`
(rusoto recomputes it from the body), then bump the part number and clear the
buffer. -/
def partFromBuffer (st : Core) : UploadPartRequest × Core :=
  ({ body := some st.input
     bucket := st.part_template.bucket
     content_length := none
     content_md5 := st.part_template.content_md5
     expected_bucket_owner := st.part_template.expected_bucket_owner
     key := st.part_template.key
     part_number := st.next_part_number
     request_payer := st.part_template.request_payer
     sse_customer_algorithm := st.part_template.sse_customer_algorithm
     sse_customer_key := st.part_template.sse_customer_key
     sse_customer_key_md5 := st.part_template.sse_customer_key_md5
     upload_id := st.part_template.upload_id },
   { st with next_part_number := st.next_part_number + 1, input := [] })

/-- `UploadParts::accept_input`: append the chunk to the accumulator and
yield a part as soon as the accumulator reaches the minimum part size. -/
def acceptInput (st : Core) (chunk : List Nat) : Option UploadPartRequest × Core :=
  let st1 := { st with input := st.input ++ chunk }
  if st.minimum_part_size ≤ st1.input.length then
    let (p, st2) := partFromBuffer st1
    (some p, st2)
  else (none, st1)

/-- `UploadParts::end_stream`: mark finished; emit one last part from the
accumulator if it is non-empty (no minimum-size requirement). -/
def endStream (st : Core) : Option UploadPartRequest × Core :=
  let st1 := { st with finished := true }
  if st1.input ≠ [] then
    let (p, st2) := partFromBuffer st1
    (some p, st2)
  else (none, st1)

/-- A fresh `UploadParts` core (from `UploadParts::new`). -/
def initCore (tmpl : UploadPartRequest) (minimumPartSize : Nat) : Core :=
  { input := [], next_part_number := 1, finished := false,
    part_template := tmpl, minimum_part_size := minimumPartSize }

/-- Feed a whole chunk sequence through `accept_input`, collecting the parts
emitted along the way. -/
def runPartsAux (st : Core) : List (List Nat) → List UploadPartRequest × Core
  | [] => ([], st)
  | ch :: rest =>
    let (op, st2) := acceptInput st ch
    let (ps, stf) := runPartsAux st2 rest
    (op.toList ++ ps, stf)

/-- Feed a whole chunk sequence and close the stream: every part the chunker
emits for that input. -/
def runParts (st : Core) (chunks : List (List Nat)) :
    List UploadPartRequest × Core :=
  let (ps, st2) := runPartsAux st chunks
  let (op, stf) := endStream st2
  (ps ++ op.toList, stf)

/-- State of the full `UploadParts` stream: upstream items are fallible
chunks, `upstreamPolls` is instrumentation counting upstream polls. -/
structure State (E : Type) where
  stream : List (Except E (List Nat))
  core : Core
  upstreamPolls : Nat

/-- The `loop` inside `UploadParts::poll_next`: upstream end triggers
`end_stream`; an upstream error is forwarded as-is; a chunk is accumulated,
emitting a part when one is ready and pulling again otherwise. -/
def pollLoop {E : Type} (core : Core) (q : Nat) :
    List (Except E (List Nat)) → Option (Except E UploadPartRequest) × State E
  | [] =>
    let (op, c2) := endStream core
    (op.map .ok, ⟨[], c2, q + 1⟩)
  | .error e :: rest => (some (.error e), ⟨rest, core, q + 1⟩)
  | .ok bytes :: rest =>
    match acceptInput core bytes with
    | (some p, c2) => (some (.ok p), ⟨rest, c2, q + 1⟩)
    | (none, c2) => pollLoop c2 (q + 1) rest

/-- `UploadParts::poll_next`: once finished, yield `none` without touching
upstream; otherwise run the pull loop. -/
def pollNext {E : Type} (st : State E) :
    Option (Except E UploadPartRequest) × State E :=
  if st.core.finished then (none, st)
  else pollLoop st.core st.upstreamPolls st.stream

end UploadParts

/-- The bytes of a part's body (`None` counts as no bytes). -/
def pbody (p : UploadPartRequest) : List Nat :=
  p.body.getD []

/-- `consecutiveFrom k ns`: the list `ns` is exactly `k, k+1, k+2, …`. -/
def consecutiveFrom (k : Int) : List Int → Bool
  | [] => true
  | n :: rest => if n = k then consecutiveFrom (k + 1) rest else false

/-! ## Concrete instances used to exercise the theorems -/

/-- A degenerate codec session on a unit state: compresses every chunk to a
single marker byte, flushes to nothing. -/
def unitCodec : Codec Unit Unit where
  compress _ input := (.ok ([42], input.length), ())
  endStreamStep _ := (.ok [], ())
  compress_consumed_le := by
    intro s input out consumed s2 h
    simp only [Prod.mk.injEq, Except.ok.injEq] at h
    omega
  compress_progress := by
    intro s input out consumed s2 h hne
    simp only [Prod.mk.injEq, Except.ok.injEq] at h
    have : 0 < input.length := List.length_pos.mpr hne
    omega
  flushFuel _ := 0
  flush_decr := by
    intro s out s2 h hne
    simp only [Prod.mk.injEq, Except.ok.injEq] at h
    simp [← h.1] at hne
  flush_mono := by
    intro s out s2 _
    exact Nat.le_refl _

/-- A concrete upload-part template with a caller-supplied content length. -/
def tmpl0 : UploadPartRequest :=
  { body := none, bucket := "b", content_length := some 1, content_md5 := none,
    expected_bucket_owner := none, key := "k", part_number := 0,
    request_payer := none, sse_customer_algorithm := none,
    sse_customer_key := none, sse_customer_key_md5 := none, upload_id := "u" }

/-! # Theorems -/

/-- C2: `SeekableDecompress::read` contract: at or past the end it returns
zero bytes, no error and performs no codec call; otherwise every codec call
is clamped to at most `decompressed_size − decompressed_position` bytes and
starts at the current position; on success the position advances by exactly
the bytes the codec produced; an advance past `u64` surfaces as
`DataTooLarge`. -/
theorem c2_read_contract :
    (∀ (ε : Type) (dec : Nat → Nat → Except ε (List Nat)) (st : Decompress.State) (b : Nat),
        st.decompressed_size ≤ st.decompressed_position →
        Decompress.read dec st b = (.ok ([], st), [])) ∧
    (∀ (ε : Type) (dec : Nat → Nat → Except ε (List Nat)) (st : Decompress.State) (b : Nat)
        (call : Nat × Nat), call ∈ (Decompress.read dec st b).2 →
        call.1 ≤ st.decompressed_size - st.decompressed_position ∧
        call.2 = st.decompressed_position) ∧
    (∀ (ε : Type) (dec : Nat → Nat → Except ε (List Nat)) (st : Decompress.State) (b : Nat)
        (bs : List Nat) (st2 : Decompress.State),
        (Decompress.read dec st b).1 = .ok (bs, st2) →
        st2.decompressed_position = st.decompressed_position + bs.length ∧
        st2.decompressed_size = st.decompressed_size) ∧
    (∀ (ε : Type) (dec : Nat → Nat → Except ε (List Nat)) (st : Decompress.State) (b : Nat)
        (bs : List Nat),
        st.decompressed_position < st.decompressed_size → 0 < b →
        dec (if st.decompressed_size - st.decompressed_position < b
             then st.decompressed_size - st.decompressed_position else b)
            st.decompressed_position = .ok bs →
        u64Max < st.decompressed_position + bs.length →
        (Decompress.read dec st b).1 = .error .DataTooLarge) := by
  refine ⟨?_, ?_, ?_, ?_⟩
  · intro ε dec st b h
    simp [Decompress.read, h]
  · intro ε dec st b call hmem
    by_cases h1 : st.decompressed_size ≤ st.decompressed_position
    · simp [Decompress.read, h1] at hmem
    · simp only [Decompress.read, if_neg h1] at hmem
      set dl := st.decompressed_size - st.decompressed_position with hdl
      by_cases h2 : (if dl < b then dl else b) = 0
      · simp [h2] at hmem
      · rw [if_neg h2] at hmem
        rcases hr : dec (if dl < b then dl else b) st.decompressed_position with e | bs
        · rw [hr] at hmem
          simp only [List.mem_singleton] at hmem
          subst hmem
          refine ⟨?_, rfl⟩
          by_cases h3 : dl < b
          · simp [h3]
          · simp only [if_neg h3]
            omega
        · rw [hr] at hmem
          by_cases h4 : u64Max < st.decompressed_position + bs.length
          all_goals
            simp only [h4, if_pos, if_neg, ite_true, ite_false, List.mem_singleton] at hmem
          all_goals
            first
            | (subst hmem
               refine ⟨?_, rfl⟩
               by_cases h3 : dl < b
               · simp [h3]
               · simp only [if_neg h3]; omega)
            | skip
  · intro ε dec st b bs st2 h
    by_cases h1 : st.decompressed_size ≤ st.decompressed_position
    · simp only [Decompress.read, if_pos h1, Except.ok.injEq, Prod.mk.injEq] at h
      rcases h with ⟨h2, h3⟩
      subst h2; subst h3
      simp
    · simp only [Decompress.read, if_neg h1] at h
      set dl := st.decompressed_size - st.decompressed_position with hdl
      by_cases h2 : (if dl < b then dl else b) = 0
      · rw [if_pos h2] at h
        simp only [Except.ok.injEq, Prod.mk.injEq] at h
        rcases h with ⟨h3, h4⟩
        subst h3; subst h4
        simp
      · rw [if_neg h2] at h
        rcases hr : dec (if dl < b then dl else b) st.decompressed_position with e | bs2
        · rw [hr] at h
          dsimp only at h
          simp at h
        · rw [hr] at h
          dsimp only at h
          by_cases h4 : u64Max < st.decompressed_position + bs2.length
          · rw [if_pos h4] at h
            simp at h
          · rw [if_neg h4] at h
            simp only [Except.ok.injEq, Prod.mk.injEq] at h
            rcases h with ⟨h5, h6⟩
            subst h5; subst h6
            simp
  · intro ε dec st b bs hlt hb hdec hover
    have h1 : ¬ st.decompressed_size ≤ st.decompressed_position := by omega
    simp only [Decompress.read, if_neg h1]
    set dl := st.decompressed_size - st.decompressed_position with hdl
    have h2 : ¬ (if dl < b then dl else b) = 0 := by
      by_cases h3 : dl < b
      · simp only [if_pos h3]; omega
      · simp only [if_neg h3]; omega
    rw [if_neg h2, hdec]
    dsimp only
    rw [if_pos hover]

/-- C2 witness: a read at a position past the end returns zero bytes, no
error and an empty codec-call log. -/
theorem c2_read_contract_witness :
    Decompress.read (fun _ _ => (.ok [] : Except Unit (List Nat))) ⟨5, 7⟩ 3
      = (.ok ([], ⟨5, 7⟩), []) :=
  c2_read_contract.1 Unit (fun _ _ => .ok []) ⟨5, 7⟩ 3 (by decide)

/-- C3 counterexample: a frame table whose FIRST frame has a decompressed
size that does not fit `u64` (here `2^64`), while the last frame is small —
`SeekableDecompress::new` succeeds instead of failing with `FrameTooLarge`,
because the source inspects only the last frame. -/
theorem c3_counterexample :
    Decompress.new Unit [⟨0, 2 ^ 64⟩, ⟨10, 5⟩] = .ok ⟨15, 0⟩ ∧
    u64Max < 2 ^ 64 := by
  constructor
  · rfl
  · norm_num [u64Max]

/-- C3 (amended): `new` fails with `NoFrames` on a zero-frame object, with
`FrameTooLarge` when the LAST frame's decompressed size does not fit `u64`,
with `DataTooLarge` when the last frame's offset plus size overflows `u64`,
and otherwise succeeds with `decompressed_size` = last offset + last size and
the cursor at 0. -/
theorem c3_new_contract :
    (∀ (ε : Type), Decompress.new ε [] = .error .NoFrames) ∧
    (∀ (ε : Type) (frames : List Frame) (lastFrame : Frame),
      frames.getLast? = some lastFrame →
      (u64Max < lastFrame.decompressedSize →
        Decompress.new ε frames = .error .FrameTooLarge) ∧
      (lastFrame.decompressedSize ≤ u64Max →
        u64Max < lastFrame.decompressedOffset + lastFrame.decompressedSize →
        Decompress.new ε frames = .error .DataTooLarge) ∧
      (lastFrame.decompressedOffset + lastFrame.decompressedSize ≤ u64Max →
        Decompress.new ε frames =
          .ok ⟨lastFrame.decompressedOffset + lastFrame.decompressedSize, 0⟩)) := by
  constructor
  · intro ε
    rfl
  · intro ε frames lastFrame hlast
    refine ⟨?_, ?_, ?_⟩
    · intro h
      simp [Decompress.new, hlast, h]
    · intro h1 h2
      rw [Decompress.new, hlast]
      dsimp only
      rw [if_neg (by omega), if_pos h2]
    · intro h
      rw [Decompress.new, hlast]
      dsimp only
      rw [if_neg (by omega), if_neg (by omega)]

/-- C3 witness: a one-frame object within `u64` constructs successfully with
size = offset + size and cursor 0. -/
theorem c3_new_contract_witness :
    Decompress.new Unit [⟨3, 4⟩] = .ok ⟨7, 0⟩ :=
  ((c3_new_contract.2 Unit [⟨3, 4⟩] ⟨3, 4⟩ rfl).2.2) (by decide)

/-- C4: `seek` never issues a fetch and never builds a range header; on a
successful seek the position becomes the returned value, the open body is
discarded exactly when the resulting position differs from the stored one and
kept (with the whole state unchanged) when it is equal; a failed seek leaves
the state unchanged. -/
theorem c4_seek_invalidation :
    ∀ (β : Type) (st : S3State β) (pos : S3.SeekFrom),
      ((S3.seek st pos).2.fetch_log = st.fetch_log ∧
       (S3.seek st pos).2.req_range = st.req_range) ∧
      (∀ n, (S3.seek st pos).1 = .ok n →
        (S3.seek st pos).2.position = n ∧
        (n = st.position → (S3.seek st pos).2 = st) ∧
        (n ≠ st.position → (S3.seek st pos).2.body = none)) ∧
      ((∃ e, (S3.seek st pos).1 = .error e) → (S3.seek st pos).2 = st) := by
  intro β st pos
  have hset : ∀ n, (S3.setPosition st n).fetch_log = st.fetch_log ∧
      (S3.setPosition st n).req_range = st.req_range ∧
      (S3.setPosition st n).position = n ∧
      (n = st.position → S3.setPosition st n = st) ∧
      (n ≠ st.position → (S3.setPosition st n).body = none) := by
    intro n
    by_cases h : st.position ≠ n
    · refine ⟨by simp [S3.setPosition, h], by simp [S3.setPosition, h],
        by simp [S3.setPosition, h], ?_, by simp [S3.setPosition, h]⟩
      intro hn
      exact absurd hn.symm h
    · push_neg at h
      subst h
      simp [S3.setPosition]
  rcases pos with p | off | off
  · refine ⟨⟨(hset p).1, (hset p).2.1⟩, ?_, ?_⟩
    · intro n hn
      simp only [S3.seek, Except.ok.injEq] at hn
      subst hn
      exact ⟨(hset _).2.2.1, (hset _).2.2.2.1, (hset _).2.2.2.2⟩
    · intro ⟨e, he⟩
      simp [S3.seek] at he
  · rcases hc : S3.checkedSeekPos st.length off with _ | n
    · refine ⟨⟨by simp [S3.seek, hc], by simp [S3.seek, hc]⟩, ?_, ?_⟩
      · intro n hn
        simp [S3.seek, hc] at hn
      · intro _
        simp [S3.seek, hc]
    · refine ⟨⟨by simp [S3.seek, hc, (hset n).1], by simp [S3.seek, hc, (hset n).2.1]⟩, ?_, ?_⟩
      · intro m hm
        simp only [S3.seek, hc, Except.ok.injEq] at hm
        subst hm
        simp only [S3.seek, hc]
        exact ⟨(hset _).2.2.1, (hset _).2.2.2.1, (hset _).2.2.2.2⟩
      · intro ⟨e, he⟩
        simp [S3.seek, hc] at he
  · rcases hc : S3.checkedSeekPos st.position off with _ | n
    · refine ⟨⟨by simp [S3.seek, hc], by simp [S3.seek, hc]⟩, ?_, ?_⟩
      · intro n hn
        simp [S3.seek, hc] at hn
      · intro _
        simp [S3.seek, hc]
    · refine ⟨⟨by simp [S3.seek, hc, (hset n).1], by simp [S3.seek, hc, (hset n).2.1]⟩, ?_, ?_⟩
      · intro m hm
        simp only [S3.seek, hc, Except.ok.injEq] at hm
        subst hm
        simp only [S3.seek, hc]
        exact ⟨(hset _).2.2.1, (hset _).2.2.2.1, (hset _).2.2.2.2⟩
      · intro ⟨e, he⟩
        simp [S3.seek, hc] at he

/-- C4 witness: seeking a body-holding object to a different absolute
position drops the body. -/
theorem c4_seek_invalidation_witness :
    (S3.seek (⟨0, 10, some (), none, []⟩ : S3State Unit) (.Start 3)).2.body = none :=
  ((c4_seek_invalidation Unit ⟨0, 10, some (), none, []⟩ (.Start 3)).2.1 3
    rfl).2.2 (by decide)

/-- C5: a read at `position ≥ length` returns `Ok 0` with the state (hence
fetch log and range header) untouched; a read at `position < length` with no
open body issues exactly one fetch whose range header is
`"bytes={position}-"` before reading. -/
theorem c5_past_end_guard :
    ∀ (β ι : Type) (client : Nat → Except ι (Option β))
      (bodyRead : β → Nat → Except ι Nat × β) (st : S3State β) (b : Nat),
      (st.length ≤ st.position → S3.read client bodyRead st b = (.ok 0, st)) ∧
      (st.position < st.length → st.body = none →
        (S3.read client bodyRead st b).2.fetch_log
            = st.fetch_log ++ [rangeHeader st.position] ∧
        (S3.read client bodyRead st b).2.req_range = some (rangeHeader st.position)) := by
  intro β ι client bodyRead st b
  constructor
  · intro h
    simp [S3.read, h]
  · intro hlt hb
    have h1 : ¬ st.length ≤ st.position := by omega
    have hrb : ∀ (st3 : S3State β),
        (S3.readBody bodyRead st3 b).2.fetch_log = st3.fetch_log ∧
        (S3.readBody bodyRead st3 b).2.req_range = st3.req_range := by
      intro st3
      rcases h3 : st3.body with _ | bl
      · simp [S3.readBody, h3]
      · rcases h4 : bodyRead bl b with ⟨r, b2⟩
        rcases r with e | n
        · simp [S3.readBody, h3, h4]
        · simp [S3.readBody, h3, h4]
    simp only [S3.read, if_neg h1, hb, Option.isSome_none, Bool.false_eq_true,
      if_false]
    rcases hcl : client st.position with e | ob
    · exact ⟨rfl, rfl⟩
    · refine ⟨?_, ?_⟩
      · rw [(hrb _).1]
      · rw [(hrb _).2]

/-- C5 witness: a past-end read returns zero bytes with no request issued. -/
theorem c5_past_end_guard_witness :
    S3.read (fun _ => (.ok none : Except Unit (Option Unit)))
        (fun _ _ => (.ok 0, ())) (⟨5, 3, none, none, []⟩ : S3State Unit) 4
      = (.ok 0, ⟨5, 3, none, none, []⟩) :=
  (c5_past_end_guard Unit Unit (fun _ => .ok none) (fun _ _ => (.ok 0, ()))
    ⟨5, 3, none, none, []⟩ 4).1 (by decide)

/-- C10 (implicit frame effect): a read consuming an open body advances the
position by exactly the bytes the body produced on success; on a body error
(a timeout included) the error is returned with the position unchanged and
the body still present. -/
theorem c10_read_body_frame :
    ∀ (β ι : Type) (client : Nat → Except ι (Option β))
      (bodyRead : β → Nat → Except ι Nat × β) (st : S3State β) (b : Nat) (bl : β),
      st.body = some bl → st.position < st.length →
      (∀ n b2, bodyRead bl b = (.ok n, b2) →
        S3.read client bodyRead st b
          = (.ok n, { st with body := some b2, position := st.position + n })) ∧
      (∀ e b2, bodyRead bl b = (.error e, b2) →
        S3.read client bodyRead st b = (.error e, { st with body := some b2 })) := by
  intro β ι client bodyRead st b bl hb hlt
  have h1 : ¬ st.length ≤ st.position := by omega
  have h2 : st.body.isSome = true := by rw [hb]; rfl
  constructor
  · intro n b2 hr
    simp [S3.read, if_neg h1, h2, S3.readBody, hb, hr]
  · intro e b2 hr
    simp [S3.read, if_neg h1, h2, S3.readBody, hb, hr]

/-- C10 witness: a successful 3-byte body read advances the position from 2
to 5 and keeps the body. -/
theorem c10_read_body_frame_witness :
    S3.read (fun _ => (.ok none : Except Unit (Option Unit)))
        (fun _ _ => (.ok 3, ())) (⟨2, 9, some (), none, []⟩ : S3State Unit) 8
      = (.ok 3, ⟨5, 9, some (), none, []⟩) :=
  (c10_read_body_frame Unit Unit (fun _ => .ok none) (fun _ _ => (.ok 3, ()))
    ⟨2, 9, some (), none, []⟩ 8 () rfl (by decide)).1 3 () rfl

/-- C7: terminal stability.  Once `wrote_seek_table` (for `Compress`) or
`finished` (for `UploadParts`) is set, `poll_next` yields end-of-sequence
with the state — including the upstream and the upstream-poll counter —
completely unchanged, and hence does so under any number of repeated
polls. -/
theorem c7_terminal_stability :
    (∀ (σ ε : Type) (c : Codec σ ε) (st : CompressState σ),
        st.wrote_seek_table = true →
        Compress.pollNext c st = (none, st) ∧
        ∀ n, (fun s => (Compress.pollNext c s).2)^[n] st = st) ∧
    (∀ (E : Type) (st : UploadParts.State E),
        st.core.finished = true →
        UploadParts.pollNext st = (none, st) ∧
        ∀ n, (fun s => (UploadParts.pollNext s).2)^[n] st = st) := by
  constructor
  · intro σ ε c st h
    have hp : Compress.pollNext c st = (none, st) := by
      simp [Compress.pollNext, h]
    refine ⟨hp, ?_⟩
    intro n
    induction n with
    | zero => rfl
    | succ n ih =>
      rw [Function.iterate_succ_apply]
      simp only [hp]
      exact ih
  · intro E st h
    have hp : UploadParts.pollNext st = (none, st) := by
      simp [UploadParts.pollNext, h]
    refine ⟨hp, ?_⟩
    intro n
    induction n with
    | zero => rfl
    | succ n ih =>
      rw [Function.iterate_succ_apply]
      simp only [hp]
      exact ih

/-- C7 witness: a finished `Compress` with upstream still pending yields
end-of-sequence with the state unchanged. -/
theorem c7_terminal_stability_witness :
    Compress.pollNext unitCodec ⟨[[1]], (), true, 0⟩ = (none, ⟨[[1]], (), true, 0⟩) :=
  (c7_terminal_stability.1 Unit Unit unitCodec ⟨[[1]], (), true, 0⟩ rfl).1

/-- C9 counterexample: a template carrying `content_length = Some 1` — the
emitted part's `content_length` is `None`, not the template's value, so not
every field other than body and part number is copied verbatim. -/
theorem c9_counterexample :
    (UploadParts.runParts (UploadParts.initCore tmpl0 2) [[1, 2]]).1.map
        (fun p => p.content_length) = [none] ∧
    tmpl0.content_length = some 1 := by
  exact ⟨rfl, rfl⟩

/-- C9 (amended): every emitted part copies the template's bucket, key,
upload id, MD5, bucket owner, request payer and the three SSE parameters
verbatim; `body` is the accumulated bytes, `part_number` the computed
sequence number, and `content_length` is reset to `None` (the transport
recomputes it from the body). -/
theorem c9_part_fields :
    ∀ st : UploadParts.Core,
      ((UploadParts.partFromBuffer st).1.bucket = st.part_template.bucket ∧
       (UploadParts.partFromBuffer st).1.key = st.part_template.key ∧
       (UploadParts.partFromBuffer st).1.upload_id = st.part_template.upload_id ∧
       (UploadParts.partFromBuffer st).1.content_md5 = st.part_template.content_md5 ∧
       (UploadParts.partFromBuffer st).1.expected_bucket_owner
          = st.part_template.expected_bucket_owner ∧
       (UploadParts.partFromBuffer st).1.request_payer = st.part_template.request_payer ∧
       (UploadParts.partFromBuffer st).1.sse_customer_algorithm
          = st.part_template.sse_customer_algorithm ∧
       (UploadParts.partFromBuffer st).1.sse_customer_key
          = st.part_template.sse_customer_key ∧
       (UploadParts.partFromBuffer st).1.sse_customer_key_md5
          = st.part_template.sse_customer_key_md5) ∧
      (UploadParts.partFromBuffer st).1.body = some st.input ∧
      (UploadParts.partFromBuffer st).1.part_number = st.next_part_number ∧
      (UploadParts.partFromBuffer st).1.content_length = none := by
  intro st
  exact ⟨⟨rfl, rfl, rfl, rfl, rfl, rfl, rfl, rfl, rfl⟩, rfl, rfl, rfl⟩

/-! ### Chunker lemmas (towards C6) -/

theorem consecutiveFrom_append (k : Int) (xs ys : List Int) :
    consecutiveFrom k (xs ++ ys)
      = (consecutiveFrom k xs && consecutiveFrom (k + xs.length) ys) := by
  induction xs generalizing k with
  | nil => simp [consecutiveFrom]
  | cons x xs ih =>
    simp only [List.cons_append, consecutiveFrom, List.length_cons, List.append_eq]
    by_cases hx : x = k
    · rw [if_pos hx, if_pos hx, ih (k + 1)]
      have harith : k + 1 + (xs.length : Int) = k + ((xs.length + 1 : Nat) : Int) := by
        push_cast
        ring
      rw [harith]
    · rw [if_neg hx, if_neg hx]
      simp

theorem acceptInput_emit (st : UploadParts.Core) (ch : List Nat)
    (h : st.minimum_part_size ≤ st.input.length + ch.length) :
    UploadParts.acceptInput st ch =
      (some ⟨some (st.input ++ ch), st.part_template.bucket, none,
        st.part_template.content_md5, st.part_template.expected_bucket_owner,
        st.part_template.key, st.next_part_number, st.part_template.request_payer,
        st.part_template.sse_customer_algorithm, st.part_template.sse_customer_key,
        st.part_template.sse_customer_key_md5, st.part_template.upload_id⟩,
       ⟨[], st.next_part_number + 1, st.finished, st.part_template,
        st.minimum_part_size⟩) := by
  simp [UploadParts.acceptInput, UploadParts.partFromBuffer, h]

theorem acceptInput_skip (st : UploadParts.Core) (ch : List Nat)
    (h : st.input.length + ch.length < st.minimum_part_size) :
    UploadParts.acceptInput st ch =
      (none, ⟨st.input ++ ch, st.next_part_number, st.finished,
        st.part_template, st.minimum_part_size⟩) := by
  have h2 : ¬ st.minimum_part_size ≤ (st.input ++ ch).length := by
    simp only [List.length_append]
    omega
  rw [UploadParts.acceptInput]
  dsimp only
  rw [if_neg h2]

theorem endStream_empty (st : UploadParts.Core) (h : st.input = []) :
    UploadParts.endStream st =
      (none, ⟨[], st.next_part_number, true, st.part_template,
        st.minimum_part_size⟩) := by
  simp [UploadParts.endStream, h]

theorem endStream_flush (st : UploadParts.Core) (h : st.input ≠ []) :
    UploadParts.endStream st =
      (some ⟨some st.input, st.part_template.bucket, none,
        st.part_template.content_md5, st.part_template.expected_bucket_owner,
        st.part_template.key, st.next_part_number, st.part_template.request_payer,
        st.part_template.sse_customer_algorithm, st.part_template.sse_customer_key,
        st.part_template.sse_customer_key_md5, st.part_template.upload_id⟩,
       ⟨[], st.next_part_number + 1, true, st.part_template,
        st.minimum_part_size⟩) := by
  simp [UploadParts.endStream, UploadParts.partFromBuffer, h]

theorem runPartsAux_spec (chunks : List (List Nat)) :
    ∀ st : UploadParts.Core,
      (UploadParts.runPartsAux st chunks).2.minimum_part_size
          = st.minimum_part_size ∧
      (UploadParts.runPartsAux st chunks).2.next_part_number
          = st.next_part_number
              + ((UploadParts.runPartsAux st chunks).1.length : Int) ∧
      consecutiveFrom st.next_part_number
          ((UploadParts.runPartsAux st chunks).1.map (fun p => p.part_number))
        = true ∧
      (∀ p ∈ (UploadParts.runPartsAux st chunks).1,
        st.minimum_part_size ≤ (pbody p).length) ∧
      ((UploadParts.runPartsAux st chunks).1.map pbody).flatten
          ++ (UploadParts.runPartsAux st chunks).2.input
        = st.input ++ chunks.flatten ∧
      (st.input.length < st.minimum_part_size ∨ st.input = [] →
        (UploadParts.runPartsAux st chunks).2.input.length < st.minimum_part_size ∨
        (UploadParts.runPartsAux st chunks).2.input = []) := by
  induction chunks with
  | nil =>
    intro st
    refine ⟨rfl, by simp [UploadParts.runPartsAux],
      by simp [UploadParts.runPartsAux, consecutiveFrom], ?_,
      by simp [UploadParts.runPartsAux], ?_⟩
    · intro p hp
      simp [UploadParts.runPartsAux] at hp
    · intro h
      simpa [UploadParts.runPartsAux] using h
  | cons ch rest ih =>
    intro st
    by_cases hmin : st.minimum_part_size ≤ st.input.length + ch.length
    · obtain ⟨ih1, ih2, ih3, ih4, ih5, ih6⟩ :=
        ih ⟨[], st.next_part_number + 1, st.finished, st.part_template,
          st.minimum_part_size⟩
      dsimp only at ih1 ih2 ih3 ih4 ih5 ih6
      rw [UploadParts.runPartsAux, acceptInput_emit st ch hmin]
      simp only [Option.toList, List.singleton_append]
      refine ⟨ih1, ?_, ?_, ?_, ?_, ?_⟩
      · rw [ih2]
        simp only [List.length_cons]
        push_cast
        ring
      · simp only [List.map_cons, consecutiveFrom, if_pos rfl]
        exact ih3
      · intro p hp
        rcases List.mem_cons.mp hp with hp | hp
        · subst hp
          simp only [pbody, Option.getD_some, List.length_append]
          exact le_trans hmin (by omega)
        · exact ih4 p hp
      · simp only [List.map_cons, List.flatten_cons, pbody, Option.getD_some]
        rw [List.append_assoc, ih5]
        simp
      · intro _
        exact ih6 (Or.inr rfl)
    · obtain ⟨ih1, ih2, ih3, ih4, ih5, ih6⟩ :=
        ih ⟨st.input ++ ch, st.next_part_number, st.finished, st.part_template,
          st.minimum_part_size⟩
      dsimp only at ih1 ih2 ih3 ih4 ih5 ih6
      rw [UploadParts.runPartsAux, acceptInput_skip st ch (by omega)]
      simp only [Option.toList, List.nil_append]
      refine ⟨ih1, ih2, ih3, ih4, ?_, ?_⟩
      · rw [ih5]
        simp
      · intro _
        refine ih6 (Or.inl ?_)
        simp only [List.length_append]
        omega

/-- C6: chunker part-emission invariants: over any chunk sequence (run to
completion and closed), the emitted part numbers are exactly 1, 2, 3, …;
every part except possibly the last carries at least the configured minimum;
the concatenation of all part bodies is exactly the input bytes (the whole
accumulated buffer is carried each time, never clipped); the accumulator
never retains a full part's worth of bytes (a part is emitted as soon as the
threshold is reached); and no empty trailing part is emitted when the
accumulator is empty at end of input. -/
theorem c6_chunker_invariants :
    ∀ (tmpl : UploadPartRequest) (minSize : Nat) (chunks : List (List Nat))
      (parts : List UploadPartRequest),
      parts = (UploadParts.runParts (UploadParts.initCore tmpl minSize) chunks).1 →
      consecutiveFrom 1 (parts.map (fun p => p.part_number)) = true ∧
      (∀ p ∈ parts.dropLast, minSize ≤ (pbody p).length) ∧
      (parts.map pbody).flatten = chunks.flatten ∧
      ((UploadParts.runPartsAux (UploadParts.initCore tmpl minSize) chunks).2.input.length
          < minSize ∨
        (UploadParts.runPartsAux (UploadParts.initCore tmpl minSize) chunks).2.input = []) ∧
      ((UploadParts.runPartsAux (UploadParts.initCore tmpl minSize) chunks).2.input = [] →
        parts
          = (UploadParts.runPartsAux (UploadParts.initCore tmpl minSize) chunks).1) := by
  intro tmpl minSize chunks parts hparts
  obtain ⟨h1, h2, h3, h4, h5, h6⟩ :=
    runPartsAux_spec chunks (UploadParts.initCore tmpl minSize)
  have hbound := h6 (Or.inr rfl)
  rcases haux : UploadParts.runPartsAux (UploadParts.initCore tmpl minSize) chunks
    with ⟨auxParts, st2⟩
  rw [haux] at h1 h2 h3 h4 h5 hbound
  dsimp only at h1 h2 h3 h4 h5 hbound
  have hrun : UploadParts.runParts (UploadParts.initCore tmpl minSize) chunks
      = (auxParts ++ (UploadParts.endStream st2).1.toList,
         (UploadParts.endStream st2).2) := by
    rw [UploadParts.runParts, haux]
  by_cases hin : st2.input = []
  · rw [hrun, endStream_empty st2 hin] at hparts
    dsimp only [Option.toList] at hparts
    rw [List.append_nil] at hparts
    subst hparts
    refine ⟨?_, ?_, ?_, ?_, ?_⟩
    · simpa [UploadParts.initCore] using h3
    · intro p hp
      have hmem := List.dropLast_subset _ hp
      simpa [UploadParts.initCore] using h4 p hmem
    · have := h5
      rw [hin, List.append_nil] at this
      simpa [UploadParts.initCore] using this
    · exact Or.inr hin
    · intro _
      rfl
  · rw [hrun, endStream_flush st2 hin] at hparts
    dsimp only [Option.toList] at hparts
    subst hparts
    refine ⟨?_, ?_, ?_, ?_, ?_⟩
    · rw [List.map_append, consecutiveFrom_append]
      simp only [List.map_cons, List.map_nil, List.length_map]
      have hc1 : consecutiveFrom 1 (auxParts.map fun p => p.part_number) = true := by
        simpa [UploadParts.initCore] using h3
      have hc2 : st2.next_part_number = 1 + (auxParts.length : Int) := by
        rw [h2]
        simp [UploadParts.initCore]
      simp [consecutiveFrom, hc1, hc2]
    · intro p hp
      rw [List.dropLast_concat] at hp
      simpa [UploadParts.initCore] using h4 p hp
    · rw [List.map_append, List.flatten_append]
      simp only [List.map_cons, List.map_nil, List.flatten_cons, List.flatten_nil,
        pbody, Option.getD_some, List.append_nil]
      rw [h5]
      simp [UploadParts.initCore]
    · simpa [UploadParts.initCore] using hbound
    · intro hcontra
      exact absurd hcontra hin

/-- C6 witness: two chunks of sizes 2 and 1 with minimum 2 give parts
numbered 1, 2, the first (non-last) one at least 2 bytes. -/
theorem c6_chunker_invariants_witness :
    consecutiveFrom 1
      (((UploadParts.runParts (UploadParts.initCore tmpl0 2) [[1, 2], [3]]).1).map
        (fun p => p.part_number)) = true ∧
    (2 : Nat) ≤ (pbody ⟨some [1, 2], "b", none, none, none, "k", 1, none, none,
      none, none, "u"⟩).length := by
  have h := c6_chunker_invariants tmpl0 2 [[1, 2], [3]]
    (UploadParts.runParts (UploadParts.initCore tmpl0 2) [[1, 2], [3]]).1 rfl
  exact ⟨h.1, h.2.1 _ (by decide)⟩

/-! ### Compress poll-loop lemmas (towards C8) -/

theorem pollLoop_ok_ne_nil {σ ε : Type} (c : Codec σ ε) :
    ∀ (ups : List (List Nat)) (s : σ) (q : Nat) (bs : List Nat)
      (st2 : CompressState σ),
      Compress.pollLoop c s q ups = (some (.ok bs), st2) → bs ≠ [] := by
  intro ups
  induction ups with
  | nil =>
    intro s q bs st2 h
    rw [Compress.pollLoop] at h
    rcases hr : endStreamRun c s with ⟨r, s2⟩
    rw [hr] at h
    rcases r with e | out
    all_goals dsimp only at h
    · simp at h
    · by_cases ho : out = []
      · rw [if_pos ho] at h
        simp at h
      · rw [if_neg ho] at h
        simp only [Prod.mk.injEq, Option.some.injEq, Except.ok.injEq] at h
        rw [← h.1]
        exact ho
  | cons chunk rest ih =>
    intro s q bs st2 h
    rw [Compress.pollLoop] at h
    rcases hr : compressInput c s chunk with ⟨r, s2⟩
    rw [hr] at h
    rcases r with e | out
    all_goals dsimp only at h
    · simp at h
    · by_cases ho : out = []
      · rw [if_pos ho] at h
        exact ih s2 (q + 1) bs st2 h
      · rw [if_neg ho] at h
        simp only [Prod.mk.injEq, Option.some.injEq, Except.ok.injEq] at h
        rw [← h.1]
        exact ho

theorem pollLoop_none_flag {σ ε : Type} (c : Codec σ ε) :
    ∀ (ups : List (List Nat)) (s : σ) (q : Nat) (st2 : CompressState σ),
      Compress.pollLoop c s q ups = (none, st2) → st2.wrote_seek_table = true := by
  intro ups
  induction ups with
  | nil =>
    intro s q st2 h
    rw [Compress.pollLoop] at h
    rcases hr : endStreamRun c s with ⟨r, s2⟩
    rw [hr] at h
    rcases r with e | out
    all_goals dsimp only at h
    · simp at h
    · by_cases ho : out = []
      · rw [if_pos ho] at h
        simp only [Prod.mk.injEq] at h
        rw [← h.2]
      · rw [if_neg ho] at h
        simp at h
  | cons chunk rest ih =>
    intro s q st2 h
    rw [Compress.pollLoop] at h
    rcases hr : compressInput c s chunk with ⟨r, s2⟩
    rw [hr] at h
    rcases r with e | out
    all_goals dsimp only at h
    · simp at h
    · by_cases ho : out = []
      · rw [if_pos ho] at h
        exact ih s2 (q + 1) st2 h
      · rw [if_neg ho] at h
        simp at h

theorem pollLoop_nil_ok_flag {σ ε : Type} (c : Codec σ ε) (s : σ) (q : Nat)
    (bs : List Nat) (st2 : CompressState σ)
    (h : Compress.pollLoop c s q [] = (some (.ok bs), st2)) :
    st2.wrote_seek_table = true := by
  rw [Compress.pollLoop] at h
  rcases hr : endStreamRun c s with ⟨r, s2⟩
  rw [hr] at h
  rcases r with e | out
  all_goals dsimp only at h
  · simp at h
  · by_cases ho : out = []
    · rw [if_pos ho] at h
      simp at h
    · rw [if_neg ho] at h
      simp only [Prod.mk.injEq, Option.some.injEq, Except.ok.injEq] at h
      rw [← h.2]

/-- C8: the `Compress` stream never yields an empty `Ok` chunk (zero
compressed bytes for an upstream chunk make it re-pull upstream instead of
emitting); a poll of an unfinished stream that reports end-of-sequence did so
through the empty-flush path and set `wrote_seek_table`; and at end of input
(upstream already exhausted) the flag is set on the emitting success path as
well. -/
theorem c8_no_empty_chunks :
    ∀ (σ ε : Type) (c : Codec σ ε) (st : CompressState σ),
      (∀ bs st2, Compress.pollNext c st = (some (.ok bs), st2) → bs ≠ []) ∧
      (st.wrote_seek_table = false →
        (∀ st2, Compress.pollNext c st = (none, st2) →
          st2.wrote_seek_table = true) ∧
        (st.stream = [] → ∀ bs st2,
          Compress.pollNext c st = (some (.ok bs), st2) →
          st2.wrote_seek_table = true)) := by
  intro σ ε c st
  constructor
  · intro bs st2 h
    rw [Compress.pollNext] at h
    by_cases hf : st.wrote_seek_table
    · rw [if_pos hf] at h
      simp at h
    · rw [if_neg hf] at h
      exact pollLoop_ok_ne_nil c st.stream st.cstream st.upstreamPolls bs st2 h
  · intro hf
    constructor
    · intro st2 h
      rw [Compress.pollNext, if_neg (by rw [hf]; exact Bool.false_ne_true)] at h
      exact pollLoop_none_flag c st.stream st.cstream st.upstreamPolls st2 h
    · intro hs bs st2 h
      rw [Compress.pollNext, if_neg (by rw [hf]; exact Bool.false_ne_true)] at h
      rw [hs] at h
      exact pollLoop_nil_ok_flag c st.cstream st.upstreamPolls bs st2 h

/-- C8 witness: with a codec that compresses the chunk `[1]` to the single
marker byte `42`, the first poll emits `[42]`, which is indeed non-empty. -/
theorem c8_no_empty_chunks_witness : ([42] : List Nat) ≠ [] := by
  refine (c8_no_empty_chunks Unit Unit unitCodec ⟨[[1]], (), false, 0⟩).1 [42]
    ⟨[], (), false, 1⟩ ?_
  rw [Compress.pollNext]
  rw [if_neg (by exact Bool.false_ne_true)]
  rw [Compress.pollLoop]
  have hci : compressInput unitCodec () [1] = (.ok [42], ()) := by
    rw [compressInput, compressLoop]
    simp only [unitCodec]
    rw [compressLoop]
    simp
  rw [hci]
  simp

/-! ### Model codec lemmas (towards C1) -/

theorem compressInput_model (f : Nat) (s : MCState) (chunk : List Nat) :
    compressInput (modelCodec f) s chunk
      = (.ok (mcFeed f s chunk).1, (mcFeed f s chunk).2) := by
  by_cases hch : chunk = []
  · subst hch
    rw [compressInput, compressLoop, mcFeed]
    simp
  · have hc : mcCompress f s chunk
        = (.ok (((s.pending ++ chunk).take ((s.pending ++ chunk).length / f * f)),
            chunk.length),
           ⟨(s.pending ++ chunk).drop ((s.pending ++ chunk).length / f * f),
            s.frameSizes ++ List.replicate ((s.pending ++ chunk).length / f) f,
            s.tableEmitted⟩) := by
      rfl
    rw [compressInput, compressLoop, dif_neg hch,
      show (modelCodec f).compress = mcCompress f from rfl, hc]
    dsimp only
    rw [compressLoop]
    simp only [List.drop_length, dif_pos, List.nil_append]
    rw [mcFeed, if_neg hch, hc]

theorem mcFeed_flag (f : Nat) (s : MCState) (ch : List Nat) :
    (mcFeed f s ch).2.tableEmitted = s.tableEmitted := by
  by_cases hch : ch = [] <;> simp [mcFeed, hch, mcCompress]

theorem mcFeed_data (f : Nat) (s : MCState) (ch : List Nat) :
    (mcFeed f s ch).1 ++ (mcFeed f s ch).2.pending = s.pending ++ ch := by
  by_cases hch : ch = []
  · simp [mcFeed, hch]
  · simp [mcFeed, hch, mcCompress, List.take_append_drop]

theorem mcFeed_sum (f : Nat) (s : MCState) (ch : List Nat) :
    (mcFeed f s ch).2.frameSizes.sum
      = s.frameSizes.sum + (mcFeed f s ch).1.length := by
  by_cases hch : ch = []
  · simp [mcFeed, hch]
  · have hk : (s.pending ++ ch).length / f * f ≤ (s.pending ++ ch).length :=
      Nat.div_mul_le_self _ _
    simp only [mcFeed, if_neg hch, mcCompress]
    rw [List.sum_append, List.length_take]
    simp only [List.sum_replicate, smul_eq_mul]
    omega

theorem mcRun_flag (f : Nat) (chunks : List (List Nat)) :
    ∀ s : MCState, (mcRun f s chunks).2.tableEmitted = s.tableEmitted := by
  induction chunks with
  | nil => intro s; rfl
  | cons ch rest ih =>
    intro s
    rcases hfeed : mcFeed f s ch with ⟨o, s2⟩
    rw [mcRun, hfeed]
    dsimp only
    rcases hrun : mcRun f s2 rest with ⟨os, sf⟩
    dsimp only
    have h1 := ih s2
    rw [hrun] at h1
    have h2 := mcFeed_flag f s ch
    rw [hfeed] at h2
    rw [h1, h2]

theorem mcRun_data (f : Nat) (chunks : List (List Nat)) :
    ∀ s : MCState,
      (mcRun f s chunks).1 ++ (mcRun f s chunks).2.pending
        = s.pending ++ chunks.flatten := by
  induction chunks with
  | nil => intro s; simp [mcRun]
  | cons ch rest ih =>
    intro s
    rcases hfeed : mcFeed f s ch with ⟨o, s2⟩
    rw [mcRun, hfeed]
    dsimp only
    rcases hrun : mcRun f s2 rest with ⟨os, sf⟩
    dsimp only
    have h1 := ih s2
    rw [hrun] at h1
    have h2 := mcFeed_data f s ch
    rw [hfeed] at h2
    dsimp only at h1 h2
    rw [List.flatten_cons, List.append_assoc, h1, ← List.append_assoc, h2,
      List.append_assoc]

theorem mcRun_sum (f : Nat) (chunks : List (List Nat)) :
    ∀ s : MCState,
      (mcRun f s chunks).2.frameSizes.sum
        = s.frameSizes.sum + (mcRun f s chunks).1.length := by
  induction chunks with
  | nil => intro s; simp [mcRun]
  | cons ch rest ih =>
    intro s
    rcases hfeed : mcFeed f s ch with ⟨o, s2⟩
    rw [mcRun, hfeed]
    dsimp only
    rcases hrun : mcRun f s2 rest with ⟨os, sf⟩
    dsimp only
    have h1 := ih s2
    rw [hrun] at h1
    have h2 := mcFeed_sum f s ch
    rw [hfeed] at h2
    dsimp only at h1 h2
    rw [h1, h2]
    simp only [List.length_append]
    omega

theorem mcFinalSizes_sum (s : MCState) :
    (mcFinalSizes s).sum = s.frameSizes.sum + s.pending.length := by
  rw [mcFinalSizes]
  by_cases h : s.pending = [] ∧ s.frameSizes ≠ []
  · rw [if_pos h]
    simp [h.1]
  · rw [if_neg h]
    simp

theorem mcFinalSizes_ne_nil (s : MCState) : mcFinalSizes s ≠ [] := by
  rw [mcFinalSizes]
  by_cases h : s.pending = [] ∧ s.frameSizes ≠ []
  · rw [if_pos h]
    exact h.2
  · rw [if_neg h]
    simp

theorem endStreamRun_model (f : Nat) (s : MCState) (h : s.tableEmitted = false) :
    endStreamRun (modelCodec f) s = (.ok (mcFinish s).1, (mcFinish s).2) := by
  have hstep : (modelCodec f).endStreamStep s
      = (.ok (s.pending ++ (mcFinalSizes s ++ [(mcFinalSizes s).length])),
         ⟨[], mcFinalSizes s, true⟩) := by
    simp [modelCodec, mcEndStreamStep, h]
  have hne : s.pending ++ (mcFinalSizes s ++ [(mcFinalSizes s).length]) ≠ [] := by
    simp
  have hstep2 : (modelCodec f).endStreamStep ⟨[], mcFinalSizes s, true⟩
      = (.ok [], ⟨[], mcFinalSizes s, true⟩) := by
    simp [modelCodec, mcEndStreamStep]
  rw [endStreamRun, hstep]
  dsimp only
  rw [endStreamLoop, dif_neg hne, hstep2]
  dsimp only
  rw [endStreamLoop]
  simp [mcFinish]

theorem drainCompress_model (f : Nat) :
    ∀ (chunks : List (List Nat)) (s : MCState) (q fuel : Nat),
      s.tableEmitted = false → chunks.length + 2 ≤ fuel →
      collectOk (drainCompress (modelCodec f) fuel ⟨chunks, s, false, q⟩).1
          = some ((mcRun f s chunks).1 ++ (mcFinish (mcRun f s chunks).2).1) ∧
      (drainCompress (modelCodec f) fuel
          ⟨chunks, s, false, q⟩).2.wrote_seek_table = true := by
  intro chunks
  induction chunks with
  | nil =>
    intro s q fuel hs hfuel
    rcases fuel with _ | fuel
    · omega
    rcases fuel with _ | fuel
    · omega
    have hpoll : Compress.pollNext (modelCodec f) ⟨[], s, false, q⟩
        = (some (.ok (mcFinish s).1), ⟨[], (mcFinish s).2, true, q + 1⟩) := by
      rw [Compress.pollNext]
      rw [if_neg (by exact Bool.false_ne_true)]
      rw [Compress.pollLoop, endStreamRun_model f s hs]
      dsimp only
      rw [if_neg (by simp [mcFinish])]
    rw [drainCompress, hpoll]
    dsimp only
    have hpoll2 : Compress.pollNext (modelCodec f)
        (⟨[], (mcFinish s).2, true, q + 1⟩ : CompressState MCState)
        = (none, ⟨[], (mcFinish s).2, true, q + 1⟩) := by
      rw [Compress.pollNext]
      rw [if_pos rfl]
    rw [drainCompress, hpoll2]
    dsimp only
    constructor
    · rw [collectOk, collectOk]
      simp [mcRun]
    · rfl
  | cons ch rest ih =>
    intro s q fuel hs hfuel
    rcases fuel with _ | fuel
    · omega
    rcases hfeed : mcFeed f s ch with ⟨o1, s2⟩
    have hflag2 : s2.tableEmitted = false := by
      have := mcFeed_flag f s ch
      rw [hfeed] at this
      dsimp only at this
      rw [this, hs]
    have hrunc : mcRun f s (ch :: rest)
        = (o1 ++ (mcRun f s2 rest).1, (mcRun f s2 rest).2) := by
      rw [mcRun, hfeed]
    by_cases ho : o1 = []
    · -- zero compressed bytes: poll falls through to the rest of upstream
      have hpoll : Compress.pollNext (modelCodec f) ⟨ch :: rest, s, false, q⟩
          = Compress.pollNext (modelCodec f) ⟨rest, s2, false, q + 1⟩ := by
        rw [Compress.pollNext, Compress.pollNext]
        rw [if_neg (by exact Bool.false_ne_true),
          if_neg (by exact Bool.false_ne_true)]
        rw [Compress.pollLoop, compressInput_model, hfeed]
        dsimp only
        rw [if_pos ho]
      have hdrain : drainCompress (modelCodec f) (fuel + 1) ⟨ch :: rest, s, false, q⟩
          = drainCompress (modelCodec f) (fuel + 1) ⟨rest, s2, false, q + 1⟩ := by
        rw [drainCompress, drainCompress, hpoll]
      rw [hdrain, hrunc]
      subst ho
      simp only [List.nil_append]
      exact ih s2 (q + 1) (fuel + 1) hflag2 (by simp at hfuel ⊢; omega)
    · have hpoll : Compress.pollNext (modelCodec f) ⟨ch :: rest, s, false, q⟩
          = (some (.ok o1), ⟨rest, s2, false, q + 1⟩) := by
        rw [Compress.pollNext]
        rw [if_neg (by exact Bool.false_ne_true)]
        rw [Compress.pollLoop, compressInput_model, hfeed]
        dsimp only
        rw [if_neg ho]
      rw [drainCompress, hpoll]
      dsimp only
      obtain ⟨ihc, ihf⟩ := ih s2 (q + 1) fuel hflag2 (by simp at hfuel ⊢; omega)
      rcases hd : drainCompress (modelCodec f) fuel ⟨rest, s2, false, q + 1⟩
        with ⟨its, stf⟩
      rw [hd] at ihc ihf
      dsimp only at ihc ihf
      refine ⟨?_, ihf⟩
      rw [collectOk, ihc]
      rw [hrunc]
      dsimp only
      simp [List.append_assoc]

/-! ### Seekable parse / construction / read-back lemmas (towards C1) -/

theorem seekable_init_parse (data sizes : List Nat)
    (hsum : data.length = sizes.sum) :
    Seekable.init (data ++ (sizes ++ [sizes.length]))
      = some ⟨framesOfSizes 0 sizes, data⟩ := by
  have hlast : (data ++ (sizes ++ [sizes.length])).getLast? = some sizes.length := by
    rw [← List.append_assoc]
    exact List.getLast?_concat _
  have hlen : (data ++ (sizes ++ [sizes.length])).length - 1
      = data.length + sizes.length := by
    simp only [List.length_append, List.length_cons, List.length_nil]
    omega
  rw [Seekable.init, hlast]
  dsimp only
  rw [hlen]
  rw [if_pos (by omega)]
  have hdl : data.length + sizes.length - sizes.length = data.length := by omega
  rw [hdl]
  have htake : (data ++ (sizes ++ [sizes.length])).take data.length = data :=
    List.take_left' rfl
  have hdrop : (data ++ (sizes ++ [sizes.length])).drop data.length
      = sizes ++ [sizes.length] :=
    List.drop_left' rfl
  rw [htake, hdrop]
  have htake2 : (sizes ++ [sizes.length]).take sizes.length = sizes :=
    List.take_left' rfl
  rw [htake2]
  rw [if_pos hsum]

theorem framesOfSizes_ne_nil (off : Nat) (sizes : List Nat) (h : sizes ≠ []) :
    framesOfSizes off sizes ≠ [] := by
  rcases sizes with _ | ⟨sz, rest⟩
  · exact absurd rfl h
  · rw [framesOfSizes]
    simp

theorem framesOfSizes_new (ε : Type) :
    ∀ (sizes : List Nat) (off : Nat), sizes ≠ [] → off + sizes.sum ≤ u64Max →
      Decompress.new ε (framesOfSizes off sizes) = .ok ⟨off + sizes.sum, 0⟩ := by
  intro sizes
  induction sizes with
  | nil =>
    intro off h
    exact absurd rfl h
  | cons sz rest ih =>
    intro off _ hle
    rw [List.sum_cons] at hle
    by_cases hr : rest = []
    · subst hr
      rw [framesOfSizes, framesOfSizes]
      rw [Decompress.new]
      simp only [List.getLast?_singleton]
      rw [if_neg (by simp; omega), if_neg (by simp; omega)]
      simp
    · have hfr := framesOfSizes_ne_nil (off + sz) rest hr
      rcases hfs : framesOfSizes (off + sz) rest with _ | ⟨fr2, frs⟩
      · exact absurd hfs hfr
      have hcons : Decompress.new ε (framesOfSizes off (sz :: rest))
          = Decompress.new ε (framesOfSizes (off + sz) rest) := by
        rw [framesOfSizes, hfs]
        rw [Decompress.new, Decompress.new]
        rw [List.getLast?_cons_cons]
      rw [hcons]
      have := ih (off + sz) hr (by omega)
      rw [this]
      have harith : off + sz + rest.sum = off + (sz :: rest).sum := by
        rw [List.sum_cons]
        omega
      rw [harith]

theorem skDecompress_read (frames : List Frame) (data : List Nat) (b p : Nat)
    (hb : 0 < b) (hp : p < data.length) (hlen : data.length ≤ u64Max) :
    (Decompress.read (skDecompress ⟨frames, data⟩) ⟨data.length, p⟩ b).1
      = .ok ((data.drop p).take (if data.length - p < b then data.length - p else b),
          ⟨data.length,
           p + (if data.length - p < b then data.length - p else b)⟩) := by
  have h1 : ¬ data.length ≤ p := by omega
  rw [Decompress.read]
  dsimp only
  rw [if_neg h1]
  have hm : ¬ (if data.length - p < b then data.length - p else b) = 0 := by
    by_cases h : data.length - p < b
    · rw [if_pos h]
      omega
    · rw [if_neg h]
      omega
  rw [if_neg hm]
  rw [skDecompress]
  dsimp only
  have hmle : (if data.length - p < b then data.length - p else b) ≤ data.length - p := by
    by_cases h : data.length - p < b
    · rw [if_pos h]
    · rw [if_neg h]
      omega
  have hblen : ((data.drop p).take
      (if data.length - p < b then data.length - p else b)).length
      = (if data.length - p < b then data.length - p else b) := by
    simp only [List.length_take, List.length_drop]
    omega
  rw [hblen]
  rw [if_neg (by omega)]

theorem readAll_model (frames : List Frame) (data : List Nat) (b : Nat)
    (hb : 0 < b) (hlen : data.length ≤ u64Max) :
    ∀ (fuel p : Nat), p ≤ data.length → data.length - p ≤ fuel →
      readAll (skDecompress ⟨frames, data⟩) b fuel ⟨data.length, p⟩
        = .ok (data.drop p) := by
  intro fuel
  induction fuel with
  | zero =>
    intro p hp hfuel
    have hpe : p = data.length := by omega
    subst hpe
    rw [readAll]
    rw [List.drop_length]
  | succ fuel ih =>
    intro p hp hfuel
    by_cases hpe : p = data.length
    · subst hpe
      have hread : (Decompress.read (skDecompress ⟨frames, data⟩)
          ⟨data.length, data.length⟩ b).1 = .ok ([], ⟨data.length, data.length⟩) := by
        rw [Decompress.read]
        dsimp only
        rw [if_pos (Nat.le_refl _)]
      rw [readAll, hread]
      dsimp only
      rw [if_pos rfl, List.drop_length]
    · have hplt : p < data.length := lt_of_le_of_ne hp hpe
      have hread := skDecompress_read frames data b p hb hplt hlen
      set m := if data.length - p < b then data.length - p else b with hm
      have hmpos : 0 < m := by
        rw [hm]
        by_cases h : data.length - p < b
        · rw [if_pos h]
          omega
        · rw [if_neg h]
          omega
      have hmle : m ≤ data.length - p := by
        rw [hm]
        by_cases h : data.length - p < b
        · rw [if_pos h]
        · rw [if_neg h]
          omega
      have hbs : ((data.drop p).take m) ≠ [] := by
        have : ((data.drop p).take m).length = m := by
          simp only [List.length_take, List.length_drop]
          omega
        intro hcon
        rw [hcon] at this
        simp at this
        omega
      rw [readAll, hread]
      dsimp only
      rw [if_neg hbs]
      rw [ih (p + m) (by omega) (by omega)]
      rw [Except.map]
      have hdd : data.drop (p + m) = (data.drop p).drop m := by
        rw [List.drop_drop]
      rw [hdd, List.take_append_drop]

/-- C1: round trip.  For any upstream chunk sequence (the empty one
included), compression levels 1 and 19 and frame sizes 64, 1024 and 65536,
driving the `Compress` stream over the model codec until it terminates,
concatenating every `Ok` chunk it yields, opening the result through the
model `Seekable` and reading it back in full through `SeekableDecompress`
returns exactly the original bytes.  (The `u64Max` bound reflects that byte
counts are `usize` values in the source.) -/
theorem c1_round_trip :
    ∀ (level f b : Nat) (chunks : List (List Nat)),
      (level = 1 ∨ level = 19) →
      (f = 64 ∨ f = 1024 ∨ f = 65536) →
      0 < b →
      chunks.flatten.length ≤ u64Max →
      roundTrip level f chunks b (chunks.length + 2) (chunks.flatten.length + 1)
        = some chunks.flatten := by
  intro level f b chunks _ _ hb hlen
  obtain ⟨hcollect, hflag⟩ :=
    drainCompress_model f chunks ⟨[], [], false⟩ 0 (chunks.length + 2) rfl
      (Nat.le_refl _)
  rcases hdrain : drainCompress (modelCodec f) (chunks.length + 2)
      ⟨chunks, ⟨[], [], false⟩, false, 0⟩ with ⟨items, stf⟩
  rw [hdrain] at hcollect hflag
  dsimp only at hcollect hflag
  rcases hrun : mcRun f ⟨[], [], false⟩ chunks with ⟨o, sfin⟩
  rw [hrun] at hcollect
  dsimp only at hcollect
  have hdata := mcRun_data f chunks ⟨[], [], false⟩
  have hsum := mcRun_sum f chunks ⟨[], [], false⟩
  have hflag2 := mcRun_flag f chunks ⟨[], [], false⟩
  rw [hrun] at hdata hsum hflag2
  dsimp only at hdata hsum hflag2
  rw [List.nil_append] at hdata
  simp only [List.sum_nil, Nat.zero_add] at hsum
  -- the compressed object is the original bytes followed by the index
  have hfin : (mcFinish sfin).1
      = sfin.pending ++ (mcFinalSizes sfin ++ [(mcFinalSizes sfin).length]) := rfl
  have hcompressed : o ++ (mcFinish sfin).1
      = chunks.flatten ++ (mcFinalSizes sfin ++ [(mcFinalSizes sfin).length]) := by
    rw [hfin, ← List.append_assoc, hdata]
  have hsizes : chunks.flatten.length = (mcFinalSizes sfin).sum := by
    rw [mcFinalSizes_sum]
    rw [hsum]
    have := congrArg List.length hdata
    simp only [List.length_append] at this
    omega
  rw [roundTrip]
  rw [hdrain]
  dsimp only
  rw [hflag]
  rw [if_pos rfl]
  rw [hcollect, hcompressed]
  dsimp only
  rw [seekable_init_parse _ _ hsizes]
  dsimp only
  rw [framesOfSizes_new Empty (mcFinalSizes sfin) 0 (mcFinalSizes_ne_nil sfin)
    (by omega)]
  dsimp only
  rw [Nat.zero_add, ← hsizes]
  rw [readAll_model _ _ b hb hlen _ 0 (Nat.zero_le _) (by omega)]
  rw [List.drop_zero]

/-- C1 witness: two concrete chunks at level 1, frame size 64, read back with
an 8-byte buffer, round trip to the original four bytes. -/
theorem c1_round_trip_witness :
    roundTrip 1 64 [[1, 2, 3], [4]] 8 4 5 = some [1, 2, 3, 4] :=
  c1_round_trip 1 64 8 [[1, 2, 3], [4]] (Or.inl rfl) (Or.inl rfl)
    (by norm_num) (by norm_num [u64Max])
